import Mathlib

/-!
# Verification of the scikit-criteria core (util.py and madm/closeness.py)

Shallow embedding of the two source files of the repository:

* `skcriteria/util.py` — the constants `MIN`/`MAX`, the criteria-vector
  validator `criteriarr`, the matrix guard `is_mtx` and the lookup helper
  `nearest`.  These are numerics-free and are embedded computably over
  `ℤ`/`ℚ`, with numpy's NaN entries modelled as `none` in `Option ℚ` and
  Python exceptions as the `Except.error` branch.

* `skcriteria/madm/closeness.py` — the function `topsis` and the method
  `TOPSIS.solve`.  The floating point arithmetic is idealised over `ℝ`
  (Euclidean distances need `Real.sqrt`).  numpy's unguarded float division
  `0/0`, which yields NaN rather than raising, is modelled separately by an
  `Option`-valued division (`ieeeDiv`).

The ranking collaborator `rank.rankdata` and the `DecisionMaker` framework
(`_dmaker.py`) are not part of the source tree; where a claim needs them they
are modelled from the specification (see `rankdata` and `SolveOutput`).
-/

namespace SkCriteria

/-! ## Constants (util.py lines 61-63) -/

/-- `MIN = -1` (util.py line 61). -/
def MIN : ℤ := -1

/-- `MAX = 1` (util.py line 63). -/
def MAX : ℤ := 1

/-! ## criteriarr (util.py lines 70-75)

```python
def criteriarr(criteria):
    criteria = np.asarray(criteria)
    if np.setdiff1d(criteria, [MIN, MAX]):
        msg = "Criteria Array only accept '{}' or '{}' Values. Found {}"
        raise ValueError(msg.format(MAX, MIN, criteria))
    return criteria
```

`np.setdiff1d` returns the sorted unique values of its first argument that
are not in the second.  Putting the resulting *array* in an `if` uses numpy's
array truthiness: an empty array is falsy, a one-element array has the truth
value of its single element, and an array with two or more elements raises
`ValueError` ("truth value ... is ambiguous").
-/

/-- A single apostrophe, built from its code point so the character never
appears literally in this file. -/
def sq : String := String.singleton (Char.ofNat 39)

/-- `str()` of a 1-D integer numpy array: space-separated values in
brackets. -/
def npArrayStr (l : List ℤ) : String :=
  "[" ++ String.intercalate " " (l.map toString) ++ "]"

/-- `np.setdiff1d ar1 ar2`: sorted unique values of `ar1` not in `ar2`. -/
def setdiff1d (ar1 ar2 : List ℤ) : List ℤ :=
  List.insertionSort (· ≤ ·) ((ar1.filter (fun x => decide (x ∉ ar2))).dedup)

/-- numpy's truth value of a 1-D array: empty arrays are falsy, one-element
arrays take the truth value of the element, larger arrays raise. -/
def arrTruthy (l : List ℤ) : Except String Bool :=
  match l with
  | [] => Except.ok false
  | [x] => Except.ok (decide (x ≠ 0))
  | _ => Except.error "The truth value of an array with more than one element is ambiguous. Use a.any() or a.all()"

/-- The message `"Criteria Array only accept '{}' or '{}' Values. Found {}"`
formatted with `MAX`, `MIN` and the offending array. -/
def criteriaMsg (criteria : List ℤ) : String :=
  "Criteria Array only accept " ++ sq ++ toString MAX ++ sq ++ " or " ++ sq
    ++ toString MIN ++ sq ++ " Values. Found " ++ npArrayStr criteria

/-- `criteriarr` (util.py lines 70-75). -/
def criteriarr (criteria : List ℤ) : Except String (List ℤ) :=
  match arrTruthy (setdiff1d criteria [MIN, MAX]) with
  | Except.error e => Except.error e
  | Except.ok true => Except.error (criteriaMsg criteria)
  | Except.ok false => Except.ok criteria

/-! ## is_mtx (util.py lines 78-86)

```python
def is_mtx(mtx, size=None):
    try:
        mtx = np.asarray(mtx)
        a, b = mtx.shape
        if size and (a, b) != size:
            return False
    except:
        return False
    return True
```

Array-like candidates are modelled up to nesting depth three (scalars, flat
lists, lists of lists, lists of lists of lists), which covers every shape the
spec discusses.  `npShape` mirrors numpy's level-wise shape discovery: a
nesting level extends the shape only while all sequences at that level have
one common length; a ragged level stops the shape there (numpy then builds an
object array of the remaining structure). -/

/-- A Python value handed to `np.asarray`, up to nesting depth three. -/
inductive PyVal where
  | scalar (q : ℚ)
  | vec (l : List ℚ)
  | table (rows : List (List ℚ))
  | cube (slabs : List (List (List ℚ)))

/-- The shape `np.asarray` discovers for a `PyVal`. -/
def npShape : PyVal → List ℕ
  | PyVal.scalar _ => []
  | PyVal.vec l => [l.length]
  | PyVal.table rows =>
    match rows with
    | [] => [0]
    | r :: rs =>
      if rs.all (fun x => decide (x.length = r.length))
      then [rs.length + 1, r.length] else [rs.length + 1]
  | PyVal.cube slabs =>
    match slabs with
    | [] => [0]
    | s :: ss =>
      if ss.all (fun x => decide (x.length = s.length)) then
        match (s :: ss).flatten with
        | [] => [ss.length + 1, s.length]
        | r :: rs =>
          if rs.all (fun x => decide (x.length = r.length))
          then [ss.length + 1, s.length, r.length]
          else [ss.length + 1, s.length]
      else [ss.length + 1]

/-- `is_mtx` (util.py lines 78-86).  Unpacking `a, b = mtx.shape` succeeds
exactly when the discovered shape has two entries; every failure inside the
`try` is swallowed into `false` by the bare `except`. -/
def is_mtx (mtx : PyVal) (size : Option (ℕ × ℕ)) : Bool :=
  match npShape mtx with
  | [a, b] =>
    match size with
    | some s => decide ((a, b) = s)
    | none => true
  | _ => false

/-! ## nearest (util.py lines 89-117)

```python
def nearest(array, value, side=None):
    if side not in (None, "gt", "lt"):
        msg = "'side' must be None, 'gt' or 'lt'. Found {}".format(side)
        raise ValueError(msg)
    raveled = np.ravel(array)
    cleaned = raveled[~np.isnan(raveled)]
    if side is None:
        idx = np.argmin(np.abs(cleaned-value))
    else:
        masker, decisor = (
            (np.ma.less_equal,  np.argmin)
            if side == "gt" else
            (np.ma.greater_equal, np.argmax))
        diff = cleaned - value
        mask = masker(diff, 0)
        if np.all(mask):
            return None
        masked_diff = np.ma.masked_array(diff, mask)
        idx = decisor(masked_diff)
    return cleaned[idx]
```

The 1-D input array is a `List (Option ℚ)` with `none` for NaN entries, so
`cleaned` is `filterMap id`.  `side` is an `Option String` (`None`, `"gt"`,
`"lt"` or an arbitrary other string).  For `side="gt"` the mask hides the
entries with `diff <= 0`, leaving the strictly positive differences, and
`np.argmin` picks the first index of the smallest one; `is_mtx`-style, the
selection is embedded by filtering the unmasked entries and taking the first
value minimising the difference (`argminVal`).  For `side="lt"` the mask
hides `diff >= 0` and `np.argmax` keeps the first largest (least negative)
difference, i.e. the first value minimising `value - x`.  `np.all(mask)`
(every entry masked) is the filtered list being empty. -/

/-- `cleaned = raveled[~np.isnan(raveled)]`: drop the NaN entries. -/
def npRavelClean (array : List (Option ℚ)) : List ℚ := array.filterMap id

/-- The first element of the list minimising `f` (`np.argmin` over the values
of `f`, followed by indexing back into the list). -/
def argminVal (f : ℚ → ℚ) : List ℚ → Option ℚ
  | [] => none
  | x :: xs =>
    match argminVal f xs with
    | none => some x
    | some b => if f b < f x then some b else some x

/-- The message `"'side' must be None, 'gt' or 'lt'. Found {}"` formatted
with the offending side. -/
def sideMsg (side : Option String) : String :=
  sq ++ "side" ++ sq ++ " must be None, " ++ sq ++ "gt" ++ sq ++ " or "
    ++ sq ++ "lt" ++ sq ++ ". Found "
    ++ (match side with | none => "None" | some s => s)

/-- `nearest` (util.py lines 89-117). -/
def nearest (array : List (Option ℚ)) (value : ℚ) (side : Option String) :
    Except String (Option ℚ) :=
  if side = none ∨ side = some "gt" ∨ side = some "lt" then
    let cleaned := npRavelClean array
    match side with
    | none =>
      match argminVal (fun x => |x - value|) cleaned with
      | none => Except.error "attempt to get argmin of an empty sequence"
      | some x => Except.ok (some x)
    | some s =>
      let unmasked :=
        if s = "gt" then cleaned.filter (fun x => decide (value < x))
        else cleaned.filter (fun x => decide (x < value))
      match
        (if s = "gt" then argminVal (fun x => x - value) unmasked
         else argminVal (fun x => value - x) unmasked) with
      | none => Except.ok none
      | some x => Except.ok (some x)
  else Except.error (sideMsg side)

/-! ## topsis (madm/closeness.py lines 71-92)

```python
def topsis(nmtx, ncriteria, nweights):
    wmtx = np.multiply(nmtx, nweights)
    mins = np.min(wmtx, axis=0)
    maxs = np.max(wmtx, axis=0)
    ideal = np.where(ncriteria == MAX, maxs, mins)
    anti_ideal = np.where(ncriteria == MIN, maxs, mins)
    d_better = np.sqrt(np.sum(np.power(wmtx - ideal, 2), axis=1))
    d_worst = np.sqrt(np.sum(np.power(wmtx - anti_ideal, 2), axis=1))
    closeness = d_worst / (d_better + d_worst)
    return rank.rankdata(closeness, reverse=True), closeness
```

The decision matrix has `n+1` alternatives (numpy's `np.min`/`np.max` over
axis 0 require at least one row) and `m` criteria; float arithmetic is
idealised over `ℝ`.  The float division `d_worst / (d_better + d_worst)` is
embedded twice: `closeness` uses Lean's total real division (adequate
everywhere the denominator is nonzero, which is where the ranking claims
live), and `closenessNp` uses `ieeeDiv`, which is faithful to IEEE/numpy in
that a zero denominator produces no real number (numpy yields NaN for `0/0`
and raises nothing). -/

noncomputable section

variable {n m : ℕ}

/-- `wmtx = np.multiply(nmtx, nweights)`: weights applied column-wise. -/
def wmtxOf (nmtx : Fin (n + 1) → Fin m → ℝ) (nweights : Fin m → ℝ) :
    Fin (n + 1) → Fin m → ℝ :=
  fun i j => nmtx i j * nweights j

/-- `mins = np.min(wmtx, axis=0)`. -/
def minsOf (w : Fin (n + 1) → Fin m → ℝ) (j : Fin m) : ℝ :=
  Finset.univ.inf' Finset.univ_nonempty (fun i => w i j)

/-- `maxs = np.max(wmtx, axis=0)`. -/
def maxsOf (w : Fin (n + 1) → Fin m → ℝ) (j : Fin m) : ℝ :=
  Finset.univ.sup' Finset.univ_nonempty (fun i => w i j)

/-- `np.where(cond, a, b)`, element-wise. -/
def npWhere (cond : Fin m → Prop) [DecidablePred cond] (a b : Fin m → ℝ) :
    Fin m → ℝ :=
  fun j => if cond j then a j else b j

/-- `ideal = np.where(ncriteria == MAX, maxs, mins)`. -/
def idealOf (ncriteria : Fin m → ℤ) (w : Fin (n + 1) → Fin m → ℝ) :
    Fin m → ℝ :=
  npWhere (fun j => ncriteria j = MAX) (maxsOf w) (minsOf w)

/-- `anti_ideal = np.where(ncriteria == MIN, maxs, mins)`. -/
def antiIdealOf (ncriteria : Fin m → ℤ) (w : Fin (n + 1) → Fin m → ℝ) :
    Fin m → ℝ :=
  npWhere (fun j => ncriteria j = MIN) (maxsOf w) (minsOf w)

/-- `d_better = np.sqrt(np.sum(np.power(wmtx - ideal, 2), axis=1))`. -/
def dBetter (nmtx : Fin (n + 1) → Fin m → ℝ) (ncriteria : Fin m → ℤ)
    (nweights : Fin m → ℝ) (i : Fin (n + 1)) : ℝ :=
  Real.sqrt (∑ j, (wmtxOf nmtx nweights i j
    - idealOf ncriteria (wmtxOf nmtx nweights) j) ^ 2)

/-- `d_worst = np.sqrt(np.sum(np.power(wmtx - anti_ideal, 2), axis=1))`. -/
def dWorst (nmtx : Fin (n + 1) → Fin m → ℝ) (ncriteria : Fin m → ℤ)
    (nweights : Fin m → ℝ) (i : Fin (n + 1)) : ℝ :=
  Real.sqrt (∑ j, (wmtxOf nmtx nweights i j
    - antiIdealOf ncriteria (wmtxOf nmtx nweights) j) ^ 2)

/-- `closeness = d_worst / (d_better + d_worst)` with Lean's total real
division (the value at a zero denominator is irrelevant to the ranking
claims: a zero denominator forces a zero numerator, see `closenessNp`). -/
def closeness (nmtx : Fin (n + 1) → Fin m → ℝ) (ncriteria : Fin m → ℤ)
    (nweights : Fin m → ℝ) (i : Fin (n + 1)) : ℝ :=
  dWorst nmtx ncriteria nweights i
    / (dBetter nmtx ncriteria nweights i + dWorst nmtx ncriteria nweights i)

/-- IEEE-style float division as numpy performs it: a zero denominator
yields no real number (NaN for `0/0`, signed infinity otherwise) and no
exception is raised; the absence of a real value is modelled as `none`. -/
def ieeeDiv (a b : ℝ) : Option ℝ :=
  if b = 0 then none else some (a / b)

/-- The closeness computation with the division modelled faithfully to
IEEE/numpy semantics. -/
def closenessNp (nmtx : Fin (n + 1) → Fin m → ℝ) (ncriteria : Fin m → ℤ)
    (nweights : Fin m → ℝ) (i : Fin (n + 1)) : Option ℝ :=
  ieeeDiv (dWorst nmtx ncriteria nweights i)
    (dBetter nmtx ncriteria nweights i + dWorst nmtx ncriteria nweights i)

/-- Modelled from the spec: the collaborator `rank.rankdata(scores,
reverse=True)` (RankingUtility, not part of the source tree) turns scores
into descending ranks, the highest score receiving rank 1.  The rank of
alternative `i` is one plus the number of alternatives with a strictly
greater score; the spec delegates tie policy, and here ties share the best
applicable rank. -/
def rankdata (c : Fin (n + 1) → ℝ) (i : Fin (n + 1)) : ℕ :=
  1 + (Finset.univ.filter (fun k => c i < c k)).card

/-- `topsis` (madm/closeness.py lines 71-92): the pair
`(rank.rankdata(closeness, reverse=True), closeness)`. -/
def topsis (nmtx : Fin (n + 1) → Fin m → ℝ) (ncriteria : Fin m → ℤ)
    (nweights : Fin m → ℝ) : (Fin (n + 1) → ℕ) × (Fin (n + 1) → ℝ) :=
  (rankdata (closeness nmtx ncriteria nweights),
    closeness nmtx ncriteria nweights)

/-! ## TOPSIS.solve (madm/closeness.py lines 161-164)

```python
def solve(self, ndata):
    nmtx, ncriteria, nweights = ndata.mtx, ndata.criteria, ndata.weights
    rank, closeness = topsis(nmtx, ncriteria, nweights)
    return None, rank, {"closeness": closeness}
```

Modelled from the spec: the `DecisionMaker` framework (`_dmaker.py`, not in
the source tree) consumes the returned triple as `(kernel, rank, extra)`
(spec section 4.3 step 4), so the triple is embedded as a record with those
three fields in that order. -/

/-- The `(kernel, rank, extra)` triple an algorithm's `solve` returns to the
`DecisionMaker` framework. -/
structure SolveOutput (N : ℕ) where
  kernel : Option (Fin N → ℕ)
  rank : Option (Fin N → ℕ)
  extra : List (String × (Fin N → ℝ))

/-- `TOPSIS.solve` (madm/closeness.py lines 161-164): the Python statement
`return None, rank, {"closeness": closeness}`. -/
def TOPSIS_solve (nmtx : Fin (n + 1) → Fin m → ℝ) (ncriteria : Fin m → ℤ)
    (nweights : Fin m → ℝ) : SolveOutput (n + 1) :=
  { kernel := none
    rank := some (topsis nmtx ncriteria nweights).1
    extra := [("closeness", (topsis nmtx ncriteria nweights).2)] }

/-- Strictly increasing the single entry `(i, j)` of a decision matrix by
`δ`, all other entries fixed. -/
def bump (nmtx : Fin (n + 1) → Fin m → ℝ) (i : Fin (n + 1)) (j : Fin m)
    (δ : ℝ) : Fin (n + 1) → Fin m → ℝ :=
  fun a b => if a = i ∧ b = j then nmtx a b + δ else nmtx a b

/-! Concrete inputs used by counterexamples and witnesses. -/

/-- A two-alternative, one-criterion decision matrix `[[0], [1]]`. -/
def exA : Fin 2 → Fin 1 → ℝ := ![![0], ![1]]

/-- One MAX criterion. -/
def critA : Fin 1 → ℤ := ![MAX]

/-- A single unit weight. -/
def wA : Fin 1 → ℝ := ![1]

/-- The single-alternative matrix `[[1]]` (spec scenario 5: `n = 1` is
degenerate by definition). -/
def exD : Fin 1 → Fin 1 → ℝ := ![![1]]

end

/-! ## Helper lemmas about `argminVal` -/

/-- `argminVal` returns the first element minimising `f`: it fails only on
the empty list, and otherwise returns a member whose `f`-value is least. -/
theorem argminVal_spec (f : ℚ → ℚ) (l : List ℚ) :
    (l = [] ∧ argminVal f l = none) ∨
      ∃ r, argminVal f l = some r ∧ r ∈ l ∧ ∀ y ∈ l, f r ≤ f y := by
  induction l with
  | nil => exact Or.inl ⟨rfl, rfl⟩
  | cons x xs ih =>
    right
    rcases ih with ⟨hnil, hnone⟩ | ⟨b, hb, hbmem, hble⟩
    · subst hnil
      refine ⟨x, rfl, List.mem_cons_self x [], ?_⟩
      intro y hy
      rcases List.mem_cons.mp hy with rfl | hy'
      · exact le_refl _
      · exact absurd hy' (List.not_mem_nil y)
    · by_cases hcmp : f b < f x
      · refine ⟨b, ?_, List.mem_cons_of_mem x hbmem, ?_⟩
        · simp [argminVal, hb, hcmp]
        · intro y hy
          rcases List.mem_cons.mp hy with rfl | hy'
          · exact le_of_lt hcmp
          · exact hble y hy'
      · refine ⟨x, ?_, List.mem_cons_self x xs, ?_⟩
        · simp [argminVal, hb, hcmp]
        · intro y hy
          rcases List.mem_cons.mp hy with rfl | hy'
          · exact le_refl _
          · exact le_trans (not_lt.mp hcmp) (hble y hy')

/-- `argminVal` fails exactly on the empty list. -/
theorem argminVal_eq_none_iff (f : ℚ → ℚ) (l : List ℚ) :
    argminVal f l = none ↔ l = [] := by
  rcases argminVal_spec f l with ⟨hnil, hnone⟩ | ⟨r, hr, -, -⟩
  · subst hnil
    simp [argminVal]
  · simp [hr]
    intro h
    subst h
    simp [argminVal] at hr

/-! ## Theorems for the utility claims -/

/-- C3: `criteriarr` is claimed to raise a validation error if and only if
some element lies outside \x7bMIN, MAX\x7d, and in particular to reject
`[MAX, 0]`.  The code instead relies on numpy array truthiness:
`np.setdiff1d([1, 0], [-1, 1])` is the one-element array `[0]`, whose truth
value is that of `0`, namely `False`, so `[MAX, 0]` is silently accepted.
A nonzero invalid value such as `2` is rejected with the documented message,
which shows the intent of the check. -/
theorem criteriarr_silently_accepts_zero :
    criteriarr [1, 0] = Except.ok [1, 0] ∧
      criteriarr [1, 2] = Except.error (criteriaMsg [1, 2]) :=
  ⟨rfl, rfl⟩

/-- C8: `is_mtx` never raises (it is a total boolean function: the bare
`except` collapses every failure to `False`); it returns `true` exactly when
the candidate coerces to a 2-D array and, when an expected shape is supplied,
the discovered shape equals it. -/
theorem is_mtx_iff_shape (v : PyVal) (size : Option (ℕ × ℕ)) :
    is_mtx v size = true ↔
      ∃ a b, npShape v = [a, b] ∧ (size = none ∨ size = some (a, b)) := by
  rcases hs : npShape v with _ | ⟨a, tl⟩
  · simp [is_mtx, hs]
  · rcases tl with _ | ⟨b, tl2⟩
    · simp [is_mtx, hs]
    · rcases tl2 with _ | ⟨c, tl3⟩
      · rcases size with _ | ⟨x, y⟩
        · simp [is_mtx, hs]
        · simp only [is_mtx, hs, decide_eq_true_eq]
          constructor
          · intro h
            exact ⟨a, b, rfl, Or.inr (by simp [h])⟩
          · rintro ⟨a', b', hab, hor⟩
            obtain ⟨rfl, rfl⟩ : a' = a ∧ b' = b := by
              simpa using hab.symm
            rcases hor with h | h
            · exact absurd h (by simp)
            · simpa using h.symm
      · simp [is_mtx, hs]

/-- C8 witness: a concrete 2x2 rectangular table passes `is_mtx` with its
own shape, via the characterisation theorem. -/
theorem is_mtx_iff_shape_witness :
    is_mtx (PyVal.table [[1, 2], [3, 4]]) (some (2, 2)) = true :=
  (is_mtx_iff_shape (PyVal.table [[1, 2], [3, 4]]) (some (2, 2))).mpr
    ⟨2, 2, rfl, Or.inr rfl⟩

/-- C9 counterexample: the claim says `side="gt"` searches among elements
greater than *or equal to* the target, so on the array `[5]` with target `5`
it would have to return `5`.  The code masks `diff <= 0`, keeping only the
strictly greater elements, and returns the none sentinel instead. -/
theorem nearest_gt_drops_equal_element :
    nearest [some (5 : ℚ)] 5 (some "gt") = Except.ok none ∧
      nearest [some (5 : ℚ)] 5 (some "gt") ≠ Except.ok (some 5) := by
  refine ⟨rfl, ?_⟩
  intro h
  rw [show nearest [some (5 : ℚ)] 5 (some "gt") = Except.ok none from rfl] at h
  simp at h

/-- C9 (amended): `nearest` with side `"gt"` returns the element closest to
the target among the non-NaN elements *strictly greater* than the target
(that element is the least such, hence the closest), side `"lt"`
symmetrically returns the closest among the elements *strictly less* than
the target, and the none sentinel is returned exactly when no non-NaN
element satisfies the strict constraint. -/
theorem nearest_strict_sides (array : List (Option ℚ)) (v : ℚ) :
    (∀ r : ℚ, nearest array v (some "gt") = Except.ok (some r) →
      r ∈ npRavelClean array ∧ v < r ∧
        ∀ y ∈ npRavelClean array, v < y → r ≤ y) ∧
    (nearest array v (some "gt") = Except.ok none ↔
      ∀ y ∈ npRavelClean array, ¬ v < y) ∧
    (∀ r : ℚ, nearest array v (some "lt") = Except.ok (some r) →
      r ∈ npRavelClean array ∧ r < v ∧
        ∀ y ∈ npRavelClean array, y < v → y ≤ r) ∧
    (nearest array v (some "lt") = Except.ok none ↔
      ∀ y ∈ npRavelClean array, ¬ y < v) := by
  have hgt : nearest array v (some "gt") =
      (match argminVal (fun x => x - v)
          ((npRavelClean array).filter (fun x => decide (v < x))) with
        | none => Except.ok none
        | some x => Except.ok (some x)) := by
    simp [nearest]
  have hlt : nearest array v (some "lt") =
      (match argminVal (fun x => v - x)
          ((npRavelClean array).filter (fun x => decide (x < v))) with
        | none => Except.ok none
        | some x => Except.ok (some x)) := by
    simp [nearest]
  refine ⟨?_, ?_, ?_, ?_⟩
  · intro r hr
    rw [hgt] at hr
    rcases argminVal_spec (fun x => x - v)
        ((npRavelClean array).filter (fun x => decide (v < x))) with
      ⟨-, hnone⟩ | ⟨r', hr', hmem, hle⟩
    · rw [hnone] at hr; simp at hr
    · rw [hr'] at hr
      obtain rfl : r' = r := by simpa using hr
      have hmem' := List.mem_filter.mp hmem
      refine ⟨hmem'.1, by simpa using hmem'.2, ?_⟩
      intro y hy hvy
      have hyf : y ∈ (npRavelClean array).filter (fun x => decide (v < x)) :=
        List.mem_filter.mpr ⟨hy, by simpa using hvy⟩
      have := hle y hyf
      simp only at this
      linarith
  · rw [hgt]
    rcases hcand : argminVal (fun x => x - v)
        ((npRavelClean array).filter (fun x => decide (v < x))) with _ | b
    · have hemp := (argminVal_eq_none_iff _ _).mp hcand
      simp only [List.filter_eq_nil_iff, decide_eq_true_eq] at hemp
      simpa using hemp
    · have hne : (npRavelClean array).filter (fun x => decide (v < x)) ≠ [] := by
        intro h
        rw [(argminVal_eq_none_iff (fun x => x - v) _).mpr h] at hcand
        simp at hcand
      constructor
      · intro h; simp at h
      · intro hall
        exfalso
        apply hne
        simp only [List.filter_eq_nil_iff, decide_eq_true_eq]
        exact hall
  · intro r hr
    rw [hlt] at hr
    rcases argminVal_spec (fun x => v - x)
        ((npRavelClean array).filter (fun x => decide (x < v))) with
      ⟨-, hnone⟩ | ⟨r', hr', hmem, hle⟩
    · rw [hnone] at hr; simp at hr
    · rw [hr'] at hr
      obtain rfl : r' = r := by simpa using hr
      have hmem' := List.mem_filter.mp hmem
      refine ⟨hmem'.1, by simpa using hmem'.2, ?_⟩
      intro y hy hvy
      have hyf : y ∈ (npRavelClean array).filter (fun x => decide (x < v)) :=
        List.mem_filter.mpr ⟨hy, by simpa using hvy⟩
      have := hle y hyf
      simp only at this
      linarith
  · rw [hlt]
    rcases hcand : argminVal (fun x => v - x)
        ((npRavelClean array).filter (fun x => decide (x < v))) with _ | b
    · have hemp := (argminVal_eq_none_iff _ _).mp hcand
      simp only [List.filter_eq_nil_iff, decide_eq_true_eq] at hemp
      simpa using hemp
    · have hne : (npRavelClean array).filter (fun x => decide (x < v)) ≠ [] := by
        intro h
        rw [(argminVal_eq_none_iff (fun x => v - x) _).mpr h] at hcand
        simp at hcand
      constructor
      · intro h; simp at h
      · intro hall
        exfalso
        apply hne
        simp only [List.filter_eq_nil_iff, decide_eq_true_eq]
        exact hall

/-- C9 witness: on `[7, NaN, 3]` with target `5`, side `"gt"` returns `7`
and the amended theorem certifies `7` is a strictly greater element of the
cleaned array that is closest from above. -/
theorem nearest_strict_sides_witness :
    (7 : ℚ) ∈ npRavelClean [some 7, none, some 3] ∧ (5 : ℚ) < 7 ∧
      ∀ y ∈ npRavelClean [some (7 : ℚ), none, some 3], 5 < y → 7 ≤ y :=
  (nearest_strict_sides [some 7, none, some 3] 5).1 7 rfl

/-- C10: an invalid `side` value makes `nearest` fail, for every array and
target, with the `ValueError` message reporting the offending side; the
result does not depend on the array, so no element is examined. -/
theorem nearest_invalid_side (array : List (Option ℚ)) (v : ℚ) (s : String)
    (hgt : s ≠ "gt") (hlt : s ≠ "lt") :
    nearest array v (some s) =
      Except.error (sq ++ "side" ++ sq ++ " must be None, " ++ sq ++ "gt"
        ++ sq ++ " or " ++ sq ++ "lt" ++ sq ++ ". Found " ++ s) := by
  rw [nearest, if_neg]
  · rfl
  · simp [hgt, hlt]

/-- C10 witness: the concrete invalid side `"up"` is rejected with the
message naming it. -/
theorem nearest_invalid_side_witness :
    ("up" ≠ "gt") ∧ ("up" ≠ "lt") ∧
      nearest [] 0 (some "up") =
        Except.error (sq ++ "side" ++ sq ++ " must be None, " ++ sq ++ "gt"
          ++ sq ++ " or " ++ sq ++ "lt" ++ sq ++ ". Found " ++ "up") :=
  ⟨by decide, by decide, nearest_invalid_side [] 0 "up" (by decide) (by decide)⟩


/-! ## Helper lemmas: column extrema over one and two alternatives -/

/-- The infimum over the two alternatives of `Fin 2`. -/
theorem inf'_fin2 (f : Fin 2 → ℝ) :
    (Finset.univ : Finset (Fin 2)).inf' Finset.univ_nonempty f
      = min (f 0) (f 1) := by
  apply le_antisymm
  · exact le_min (Finset.inf'_le _ (Finset.mem_univ 0))
      (Finset.inf'_le _ (Finset.mem_univ 1))
  · apply Finset.le_inf'
    intro i _
    fin_cases i
    · exact min_le_left _ _
    · exact min_le_right _ _

/-- The supremum over the two alternatives of `Fin 2`. -/
theorem sup'_fin2 (f : Fin 2 → ℝ) :
    (Finset.univ : Finset (Fin 2)).sup' Finset.univ_nonempty f
      = max (f 0) (f 1) := by
  apply le_antisymm
  · apply Finset.sup'_le
    intro i _
    fin_cases i
    · exact le_max_left _ _
    · exact le_max_right _ _
  · exact max_le (Finset.le_sup' _ (Finset.mem_univ 0))
      (Finset.le_sup' _ (Finset.mem_univ 1))

/-- The infimum over the unique alternative of `Fin 1`. -/
theorem inf'_fin1 (f : Fin 1 → ℝ) :
    (Finset.univ : Finset (Fin 1)).inf' Finset.univ_nonempty f = f 0 := by
  apply le_antisymm
  · exact Finset.inf'_le _ (Finset.mem_univ 0)
  · apply Finset.le_inf'
    intro i _
    fin_cases i
    exact le_refl _

/-- The supremum over the unique alternative of `Fin 1`. -/
theorem sup'_fin1 (f : Fin 1 → ℝ) :
    (Finset.univ : Finset (Fin 1)).sup' Finset.univ_nonempty f = f 0 := by
  apply le_antisymm
  · apply Finset.sup'_le
    intro i _
    fin_cases i
    exact le_refl _
  · exact Finset.le_sup' _ (Finset.mem_univ 0)

/-! ## Helper lemmas: evaluation of the concrete inputs -/

theorem exA_wmtx : wmtxOf exA wA = exA := by
  funext i j
  fin_cases j
  simp [wmtxOf, wA]

theorem exA_mins : minsOf (wmtxOf exA wA) 0 = 0 := by
  rw [minsOf]
  simp only [exA_wmtx]
  rw [inf'_fin2]
  norm_num [exA]

theorem exA_maxs : maxsOf (wmtxOf exA wA) 0 = 1 := by
  rw [maxsOf]
  simp only [exA_wmtx]
  rw [sup'_fin2]
  norm_num [exA]

theorem exA_ideal : idealOf critA (wmtxOf exA wA) 0 = 1 := by
  rw [idealOf, npWhere, if_pos]
  · exact exA_maxs
  · simp [critA]

theorem exA_anti : antiIdealOf critA (wmtxOf exA wA) 0 = 0 := by
  rw [antiIdealOf, npWhere, if_neg]
  · exact exA_mins
  · simp [critA, MIN, MAX]

theorem exA_dB0 : dBetter exA critA wA 0 = 1 := by
  rw [dBetter, Fin.sum_univ_one, exA_ideal]
  simp only [exA_wmtx]
  norm_num [exA]

theorem exA_dB1 : dBetter exA critA wA 1 = 0 := by
  rw [dBetter, Fin.sum_univ_one, exA_ideal]
  simp only [exA_wmtx]
  norm_num [exA]

theorem exA_dW0 : dWorst exA critA wA 0 = 0 := by
  rw [dWorst, Fin.sum_univ_one, exA_anti]
  simp only [exA_wmtx]
  norm_num [exA]

theorem exA_dW1 : dWorst exA critA wA 1 = 1 := by
  rw [dWorst, Fin.sum_univ_one, exA_anti]
  simp only [exA_wmtx]
  norm_num [exA]

theorem exA_closeness0 : closeness exA critA wA 0 = 0 := by
  rw [closeness, exA_dB0, exA_dW0]
  norm_num

theorem exA_closeness1 : closeness exA critA wA 1 = 1 := by
  rw [closeness, exA_dB1, exA_dW1]
  norm_num

theorem exA_rank0 : (topsis exA critA wA).1 0 = 2 := by
  have hset : (Finset.univ.filter
      (fun k => closeness exA critA wA 0 < closeness exA critA wA k))
        = ({1} : Finset (Fin 2)) := by
    ext k
    fin_cases k
    · simp [exA_closeness0]
    · simp [exA_closeness0, exA_closeness1]
  show rankdata (closeness exA critA wA) 0 = 2
  rw [rankdata, hset]
  rfl

theorem exA_rank1 : (topsis exA critA wA).1 1 = 1 := by
  have hset : (Finset.univ.filter
      (fun k => closeness exA critA wA 1 < closeness exA critA wA k))
        = (∅ : Finset (Fin 2)) := by
    ext k
    fin_cases k
    · simp [exA_closeness0, exA_closeness1]
    · simp [exA_closeness1]
  show rankdata (closeness exA critA wA) 1 = 1
  rw [rankdata, hset]
  rfl

theorem exD_degenerate :
    dBetter exD critA wA 0 + dWorst exD critA wA 0 = 0 := by
  have hw : wmtxOf exD wA = exD := by
    funext i j
    fin_cases j
    simp [wmtxOf, wA]
  have hmins : minsOf (wmtxOf exD wA) 0 = 1 := by
    rw [minsOf]
    simp only [hw]
    rw [inf'_fin1]
    norm_num [exD]
  have hmaxs : maxsOf (wmtxOf exD wA) 0 = 1 := by
    rw [maxsOf]
    simp only [hw]
    rw [sup'_fin1]
    norm_num [exD]
  have hB : dBetter exD critA wA 0 = 0 := by
    rw [dBetter, Fin.sum_univ_one, idealOf, npWhere, if_pos]
    · rw [hmaxs]
      simp only [hw]
      norm_num [exD]
    · simp [critA]
  have hW : dWorst exD critA wA 0 = 0 := by
    rw [dWorst, Fin.sum_univ_one, antiIdealOf, npWhere, if_neg]
    · rw [hmins]
      simp only [hw]
      norm_num [exD]
    · simp [critA, MIN, MAX]
  rw [hB, hW]
  norm_num

/-! ## Theorems for the TOPSIS claims -/

/-- C4: for the weighted matrix, `mins`/`maxs` are the per-column extrema
(lower and upper bounds attained at some alternative), the ideal point picks
the column maximum exactly on MAX criteria and the column minimum otherwise,
and the anti-ideal point picks the column maximum exactly on MIN criteria
and the column minimum otherwise. -/
theorem topsis_ideal_antiIdeal (nmtx : Fin (n + 1) → Fin m → ℝ)
    (ncriteria : Fin m → ℤ) (nweights : Fin m → ℝ) (j : Fin m) :
    (∀ i, minsOf (wmtxOf nmtx nweights) j ≤ wmtxOf nmtx nweights i j) ∧
    (∃ i, minsOf (wmtxOf nmtx nweights) j = wmtxOf nmtx nweights i j) ∧
    (∀ i, wmtxOf nmtx nweights i j ≤ maxsOf (wmtxOf nmtx nweights) j) ∧
    (∃ i, maxsOf (wmtxOf nmtx nweights) j = wmtxOf nmtx nweights i j) ∧
    idealOf ncriteria (wmtxOf nmtx nweights) j =
      (if ncriteria j = MAX then maxsOf (wmtxOf nmtx nweights) j
       else minsOf (wmtxOf nmtx nweights) j) ∧
    antiIdealOf ncriteria (wmtxOf nmtx nweights) j =
      (if ncriteria j = MIN then maxsOf (wmtxOf nmtx nweights) j
       else minsOf (wmtxOf nmtx nweights) j) := by
  refine ⟨?_, ?_, ?_, ?_, rfl, rfl⟩
  · intro i
    rw [minsOf]
    exact Finset.inf'_le _ (Finset.mem_univ i)
  · obtain ⟨i, -, hi⟩ := Finset.exists_mem_eq_inf'
      (Finset.univ_nonempty : (Finset.univ : Finset (Fin (n + 1))).Nonempty)
      (fun i => wmtxOf nmtx nweights i j)
    refine ⟨i, ?_⟩
    rw [minsOf]
    exact hi
  · intro i
    rw [maxsOf]
    exact Finset.le_sup' (fun a => wmtxOf nmtx nweights a j)
      (Finset.mem_univ i)
  · obtain ⟨i, -, hi⟩ := Finset.exists_mem_eq_sup'
      (Finset.univ_nonempty : (Finset.univ : Finset (Fin (n + 1))).Nonempty)
      (fun i => wmtxOf nmtx nweights i j)
    refine ⟨i, ?_⟩
    rw [maxsOf]
    exact hi

/-- C5: away from the degenerate case the closeness coefficients lie in
`[0, 1]`: both distances are square roots, hence nonnegative, and the
numerator is a summand of the denominator. -/
theorem topsis_closeness_bounds (nmtx : Fin (n + 1) → Fin m → ℝ)
    (ncriteria : Fin m → ℤ) (nweights : Fin m → ℝ)
    (h : ∀ i, dBetter nmtx ncriteria nweights i
      + dWorst nmtx ncriteria nweights i ≠ 0) :
    ∀ i, 0 ≤ closeness nmtx ncriteria nweights i ∧
      closeness nmtx ncriteria nweights i ≤ 1 := by
  intro i
  have hB : 0 ≤ dBetter nmtx ncriteria nweights i := Real.sqrt_nonneg _
  have hW : 0 ≤ dWorst nmtx ncriteria nweights i := Real.sqrt_nonneg _
  have hpos : 0 < dBetter nmtx ncriteria nweights i
      + dWorst nmtx ncriteria nweights i :=
    lt_of_le_of_ne (by linarith) (Ne.symm (h i))
  constructor
  · exact div_nonneg hW (le_of_lt hpos)
  · rw [closeness, div_le_one hpos]
    linarith

/-- C5 witness: the two-alternative input `[[0], [1]]` with one MAX
criterion and unit weight is nowhere degenerate, and its closeness values
are within the bounds. -/
theorem topsis_closeness_bounds_witness :
    (∀ i, dBetter exA critA wA i + dWorst exA critA wA i ≠ 0) ∧
      ∀ i, 0 ≤ closeness exA critA wA i ∧ closeness exA critA wA i ≤ 1 := by
  have h : ∀ i, dBetter exA critA wA i + dWorst exA critA wA i ≠ 0 := by
    intro i
    fin_cases i
    · show dBetter exA critA wA 0 + dWorst exA critA wA 0 ≠ 0
      rw [exA_dB0, exA_dW0]
      norm_num
    · show dBetter exA critA wA 1 + dWorst exA critA wA 1 ≠ 0
      rw [exA_dB1, exA_dW1]
      norm_num
  exact ⟨h, topsis_closeness_bounds exA critA wA h⟩

/-- C1 counterexample: the claim (and the class docstring, lines 121-126 of
closeness.py) says `TOPSIS.solve` returns the ranking as `kernel` and `None`
as `rank`.  On the concrete input `[[0], [1]]` the returned triple has
`kernel = None` and the ranking in the `rank` slot: the code line
`return None, rank, ...` puts `None` first. -/
theorem TOPSIS_solve_kernel_is_none :
    (TOPSIS_solve exA critA wA).kernel = none ∧
      (TOPSIS_solve exA critA wA).rank ≠ none ∧
      (TOPSIS_solve exA critA wA).rank = some (topsis exA critA wA).1 ∧
      (topsis exA critA wA).1 0 = 2 ∧ (topsis exA critA wA).1 1 = 1 := by
  refine ⟨rfl, ?_, rfl, exA_rank0, exA_rank1⟩
  intro h
  rw [show (TOPSIS_solve exA critA wA).rank = some (topsis exA critA wA).1
    from rfl] at h
  simp at h

/-- C1 (amended): `TOPSIS.solve` returns the triple
`(kernel = None, rank = descending ranking of closeness, extra = single-key
mapping closeness)`: the ranking sits in the `rank` slot, not in `kernel`,
and `rankdata` gives rank 1 to the greatest closeness. -/
theorem TOPSIS_solve_spec (nmtx : Fin (n + 1) → Fin m → ℝ)
    (ncriteria : Fin m → ℤ) (nweights : Fin m → ℝ) :
    (TOPSIS_solve nmtx ncriteria nweights).kernel = none ∧
    (TOPSIS_solve nmtx ncriteria nweights).rank =
      some (rankdata (closeness nmtx ncriteria nweights)) ∧
    (TOPSIS_solve nmtx ncriteria nweights).extra =
      [("closeness", closeness nmtx ncriteria nweights)] :=
  ⟨rfl, rfl, rfl⟩

/-- C2 counterexample: on the single-alternative input `[[1]]` (spec
scenario 5) the alternative is degenerate, and the computation still reaches
the division: it raises nothing and assigns no real constant — the IEEE
quotient `0/0` is NaN, i.e. no real value at all. -/
theorem topsis_degenerate_not_guarded :
    (dBetter exD critA wA 0 + dWorst exD critA wA 0 = 0) ∧
      closenessNp exD critA wA 0 = none := by
  refine ⟨exD_degenerate, ?_⟩
  rw [closenessNp, ieeeDiv, if_pos exD_degenerate]

/-- C2 (amended): the degenerate case is not guarded.  `topsis` performs
the division unconditionally; whenever `d_better[i] + d_worst[i] = 0` the
closeness of alternative `i` is the IEEE quotient `0/0`, i.e. NaN — neither
a raised error nor a fixed constant value. -/
theorem topsis_degenerate_closeness_nan (nmtx : Fin (n + 1) → Fin m → ℝ)
    (ncriteria : Fin m → ℤ) (nweights : Fin m → ℝ) (i : Fin (n + 1))
    (h : dBetter nmtx ncriteria nweights i
      + dWorst nmtx ncriteria nweights i = 0) :
    closenessNp nmtx ncriteria nweights i = none := by
  rw [closenessNp, ieeeDiv, if_pos h]

/-- C2 witness: the single-alternative input realises the hypothesis. -/
theorem topsis_degenerate_closeness_nan_witness :
    (dBetter exD critA wA 0 + dWorst exD critA wA 0 = 0) ∧
      closenessNp exD critA wA 0 = none :=
  ⟨exD_degenerate,
    topsis_degenerate_closeness_nan exD critA wA 0 exD_degenerate⟩

/-! ## Scale invariance (C6) -/

/-- A nonnegative constant factor moves through the column minimum. -/
theorem inf'_const_mul (k : ℝ) (hk : 0 ≤ k) (f : Fin (n + 1) → ℝ) :
    (Finset.univ.inf' Finset.univ_nonempty (fun i => k * f i))
      = k * Finset.univ.inf' Finset.univ_nonempty f := by
  apply le_antisymm
  · obtain ⟨i, -, hi⟩ := Finset.exists_mem_eq_inf'
      (Finset.univ_nonempty : (Finset.univ : Finset (Fin (n + 1))).Nonempty) f
    rw [hi]
    exact Finset.inf'_le (fun a => k * f a) (Finset.mem_univ i)
  · apply Finset.le_inf'
    intro i _
    exact mul_le_mul_of_nonneg_left (Finset.inf'_le f (Finset.mem_univ i)) hk

/-- A nonnegative constant factor moves through the column maximum. -/
theorem sup'_const_mul (k : ℝ) (hk : 0 ≤ k) (f : Fin (n + 1) → ℝ) :
    (Finset.univ.sup' Finset.univ_nonempty (fun i => k * f i))
      = k * Finset.univ.sup' Finset.univ_nonempty f := by
  apply le_antisymm
  · apply Finset.sup'_le
    intro i _
    exact mul_le_mul_of_nonneg_left (Finset.le_sup' f (Finset.mem_univ i)) hk
  · obtain ⟨i, -, hi⟩ := Finset.exists_mem_eq_sup'
      (Finset.univ_nonempty : (Finset.univ : Finset (Fin (n + 1))).Nonempty) f
    rw [hi]
    exact Finset.le_sup' (fun a => k * f a) (Finset.mem_univ i)

/-- Scaling the weight vector scales the weighted matrix. -/
theorem wmtx_scale (nmtx : Fin (n + 1) → Fin m → ℝ) (nweights : Fin m → ℝ)
    (k : ℝ) :
    wmtxOf nmtx (fun j => k * nweights j)
      = fun i j => k * wmtxOf nmtx nweights i j := by
  funext i j
  rw [wmtxOf, wmtxOf]
  ring

/-- Scaling the weighted matrix scales the ideal point. -/
theorem ideal_scale (ncriteria : Fin m → ℤ) (w : Fin (n + 1) → Fin m → ℝ)
    (k : ℝ) (hk : 0 ≤ k) (j : Fin m) :
    idealOf ncriteria (fun i j => k * w i j) j
      = k * idealOf ncriteria w j := by
  simp only [idealOf, npWhere]
  by_cases h : ncriteria j = MAX
  · rw [if_pos h, if_pos h, maxsOf, maxsOf]
    exact sup'_const_mul k hk _
  · rw [if_neg h, if_neg h, minsOf, minsOf]
    exact inf'_const_mul k hk _

/-- Scaling the weighted matrix scales the anti-ideal point. -/
theorem antiIdeal_scale (ncriteria : Fin m → ℤ) (w : Fin (n + 1) → Fin m → ℝ)
    (k : ℝ) (hk : 0 ≤ k) (j : Fin m) :
    antiIdealOf ncriteria (fun i j => k * w i j) j
      = k * antiIdealOf ncriteria w j := by
  simp only [antiIdealOf, npWhere]
  by_cases h : ncriteria j = MIN
  · rw [if_pos h, if_pos h, maxsOf, maxsOf]
    exact sup'_const_mul k hk _
  · rw [if_neg h, if_neg h, minsOf, minsOf]
    exact inf'_const_mul k hk _

/-- Scaling the weights by a nonnegative constant scales the distance to the
ideal point. -/
theorem dBetter_scale (nmtx : Fin (n + 1) → Fin m → ℝ)
    (ncriteria : Fin m → ℤ) (nweights : Fin m → ℝ) (k : ℝ) (hk : 0 ≤ k)
    (i : Fin (n + 1)) :
    dBetter nmtx ncriteria (fun j => k * nweights j) i
      = k * dBetter nmtx ncriteria nweights i := by
  rw [dBetter, dBetter]
  have hsum : (∑ j, (wmtxOf nmtx (fun j => k * nweights j) i j
        - idealOf ncriteria (wmtxOf nmtx (fun j => k * nweights j)) j) ^ 2)
      = k ^ 2 * ∑ j, (wmtxOf nmtx nweights i j
        - idealOf ncriteria (wmtxOf nmtx nweights) j) ^ 2 := by
    rw [Finset.mul_sum]
    apply Finset.sum_congr rfl
    intro j _
    rw [wmtx_scale, ideal_scale ncriteria (wmtxOf nmtx nweights) k hk j]
    ring
  rw [hsum, Real.sqrt_mul (sq_nonneg k), Real.sqrt_sq hk]

/-- Scaling the weights by a nonnegative constant scales the distance to the
anti-ideal point. -/
theorem dWorst_scale (nmtx : Fin (n + 1) → Fin m → ℝ)
    (ncriteria : Fin m → ℤ) (nweights : Fin m → ℝ) (k : ℝ) (hk : 0 ≤ k)
    (i : Fin (n + 1)) :
    dWorst nmtx ncriteria (fun j => k * nweights j) i
      = k * dWorst nmtx ncriteria nweights i := by
  rw [dWorst, dWorst]
  have hsum : (∑ j, (wmtxOf nmtx (fun j => k * nweights j) i j
        - antiIdealOf ncriteria (wmtxOf nmtx (fun j => k * nweights j)) j) ^ 2)
      = k ^ 2 * ∑ j, (wmtxOf nmtx nweights i j
        - antiIdealOf ncriteria (wmtxOf nmtx nweights) j) ^ 2 := by
    rw [Finset.mul_sum]
    apply Finset.sum_congr rfl
    intro j _
    rw [wmtx_scale, antiIdeal_scale ncriteria (wmtxOf nmtx nweights) k hk j]
    ring
  rw [hsum, Real.sqrt_mul (sq_nonneg k), Real.sqrt_sq hk]

/-- Scaling the weights by a positive constant leaves closeness unchanged. -/
theorem closeness_scale (nmtx : Fin (n + 1) → Fin m → ℝ)
    (ncriteria : Fin m → ℤ) (nweights : Fin m → ℝ) (k : ℝ) (hk : 0 < k)
    (i : Fin (n + 1)) :
    closeness nmtx ncriteria (fun j => k * nweights j) i
      = closeness nmtx ncriteria nweights i := by
  rw [closeness, closeness, dBetter_scale nmtx ncriteria nweights k hk.le i,
    dWorst_scale nmtx ncriteria nweights k hk.le i,
    show k * dBetter nmtx ncriteria nweights i
        + k * dWorst nmtx ncriteria nweights i
      = k * (dBetter nmtx ncriteria nweights i
        + dWorst nmtx ncriteria nweights i) by ring]
  exact mul_div_mul_left _ _ (ne_of_gt hk)

/-- C6: multiplying the weight vector element-wise by a positive scalar
produces the same ranking array. -/
theorem topsis_scale_invariance (nmtx : Fin (n + 1) → Fin m → ℝ)
    (ncriteria : Fin m → ℤ) (nweights : Fin m → ℝ) (k : ℝ) (hk : 0 < k) :
    (topsis nmtx ncriteria (fun j => k * nweights j)).1
      = (topsis nmtx ncriteria nweights).1 := by
  show rankdata (closeness nmtx ncriteria (fun j => k * nweights j))
    = rankdata (closeness nmtx ncriteria nweights)
  have h : closeness nmtx ncriteria (fun j => k * nweights j)
      = closeness nmtx ncriteria nweights := by
    funext i
    exact closeness_scale nmtx ncriteria nweights k hk i
  rw [h]

/-- C6 witness: doubling the unit weight on the `[[0], [1]]` input leaves
the ranking array unchanged. -/
theorem topsis_scale_invariance_witness :
    (0 : ℝ) < 2 ∧ (topsis exA critA (fun j => 2 * wA j)).1
      = (topsis exA critA wA).1 :=
  ⟨two_pos, topsis_scale_invariance exA critA wA 2 two_pos⟩

/-! ## Monotonicity (C7)

Improving one alternative on one MAX criterion moves its row towards the
ideal point and away from the anti-ideal point, while every other row can
only lose: its distance to the (possibly raised) ideal grows and its
distance to the (possibly raised) anti-ideal shrinks.  The closeness ratio
is monotone in those two distances, and the count-based descending rank is
monotone in the closeness comparisons. -/

theorem bump_apply_ne (nmtx : Fin (n + 1) → Fin m → ℝ) (i : Fin (n + 1))
    (j : Fin m) (δ : ℝ) (a : Fin (n + 1)) (b : Fin m)
    (h : ¬(a = i ∧ b = j)) : bump nmtx i j δ a b = nmtx a b := by
  rw [bump, if_neg h]

theorem bump_apply_ij (nmtx : Fin (n + 1) → Fin m → ℝ) (i : Fin (n + 1))
    (j : Fin m) (δ : ℝ) : bump nmtx i j δ i j = nmtx i j + δ := by
  rw [bump, if_pos ⟨rfl, rfl⟩]

theorem bump_wmtx_ne (nmtx : Fin (n + 1) → Fin m → ℝ) (nweights : Fin m → ℝ)
    (i : Fin (n + 1)) (j : Fin m) (δ : ℝ) (a : Fin (n + 1)) (b : Fin m)
    (h : ¬(a = i ∧ b = j)) :
    wmtxOf (bump nmtx i j δ) nweights a b = wmtxOf nmtx nweights a b := by
  rw [wmtxOf, wmtxOf, bump_apply_ne nmtx i j δ a b h]

theorem bump_wmtx_ij (nmtx : Fin (n + 1) → Fin m → ℝ) (nweights : Fin m → ℝ)
    (i : Fin (n + 1)) (j : Fin m) (δ : ℝ) :
    wmtxOf (bump nmtx i j δ) nweights i j
      = wmtxOf nmtx nweights i j + δ * nweights j := by
  rw [wmtxOf, wmtxOf, bump_apply_ij]
  ring

theorem bump_mins_ne (nmtx : Fin (n + 1) → Fin m → ℝ) (nweights : Fin m → ℝ)
    (i : Fin (n + 1)) (j : Fin m) (δ : ℝ) (b : Fin m) (hb : b ≠ j) :
    minsOf (wmtxOf (bump nmtx i j δ) nweights) b
      = minsOf (wmtxOf nmtx nweights) b := by
  have hfun : (fun a => wmtxOf (bump nmtx i j δ) nweights a b)
      = (fun a => wmtxOf nmtx nweights a b) :=
    funext fun a => bump_wmtx_ne nmtx nweights i j δ a b (fun hc => hb hc.2)
  rw [minsOf, minsOf, hfun]

theorem bump_maxs_ne (nmtx : Fin (n + 1) → Fin m → ℝ) (nweights : Fin m → ℝ)
    (i : Fin (n + 1)) (j : Fin m) (δ : ℝ) (b : Fin m) (hb : b ≠ j) :
    maxsOf (wmtxOf (bump nmtx i j δ) nweights) b
      = maxsOf (wmtxOf nmtx nweights) b := by
  have hfun : (fun a => wmtxOf (bump nmtx i j δ) nweights a b)
      = (fun a => wmtxOf nmtx nweights a b) :=
    funext fun a => bump_wmtx_ne nmtx nweights i j δ a b (fun hc => hb hc.2)
  rw [maxsOf, maxsOf, hfun]

theorem bump_maxs_mono (nmtx : Fin (n + 1) → Fin m → ℝ)
    (nweights : Fin m → ℝ) (i : Fin (n + 1)) (j : Fin m) (δ : ℝ)
    (hd : 0 ≤ δ * nweights j) :
    maxsOf (wmtxOf nmtx nweights) j
      ≤ maxsOf (wmtxOf (bump nmtx i j δ) nweights) j := by
  rw [maxsOf, maxsOf]
  apply Finset.sup'_le
  intro a _
  by_cases ha : a = i
  · subst ha
    calc wmtxOf nmtx nweights a j
        ≤ wmtxOf (bump nmtx a j δ) nweights a j := by
          rw [bump_wmtx_ij]
          linarith
      _ ≤ _ := Finset.le_sup'
          (fun c => wmtxOf (bump nmtx a j δ) nweights c j) (Finset.mem_univ a)
  · calc wmtxOf nmtx nweights a j
        = wmtxOf (bump nmtx i j δ) nweights a j :=
          (bump_wmtx_ne nmtx nweights i j δ a j (fun hc => ha hc.1)).symm
      _ ≤ _ := Finset.le_sup'
          (fun c => wmtxOf (bump nmtx i j δ) nweights c j) (Finset.mem_univ a)

theorem bump_maxs_add (nmtx : Fin (n + 1) → Fin m → ℝ)
    (nweights : Fin m → ℝ) (i : Fin (n + 1)) (j : Fin m) (δ : ℝ)
    (hd : 0 ≤ δ * nweights j) :
    maxsOf (wmtxOf (bump nmtx i j δ) nweights) j
      ≤ maxsOf (wmtxOf nmtx nweights) j + δ * nweights j := by
  rw [maxsOf, maxsOf]
  apply Finset.sup'_le
  intro a _
  by_cases ha : a = i
  · subst ha
    rw [bump_wmtx_ij]
    have := Finset.le_sup' (fun c => wmtxOf nmtx nweights c j)
      (Finset.mem_univ a)
    linarith
  · rw [bump_wmtx_ne nmtx nweights i j δ a j (fun hc => ha hc.1)]
    have := Finset.le_sup' (fun c => wmtxOf nmtx nweights c j)
      (Finset.mem_univ a)
    linarith

theorem bump_mins_mono (nmtx : Fin (n + 1) → Fin m → ℝ)
    (nweights : Fin m → ℝ) (i : Fin (n + 1)) (j : Fin m) (δ : ℝ)
    (hd : 0 ≤ δ * nweights j) :
    minsOf (wmtxOf nmtx nweights) j
      ≤ minsOf (wmtxOf (bump nmtx i j δ) nweights) j := by
  rw [minsOf, minsOf]
  apply Finset.le_inf'
  intro a _
  by_cases ha : a = i
  · subst ha
    rw [bump_wmtx_ij]
    have := Finset.inf'_le (fun c => wmtxOf nmtx nweights c j)
      (Finset.mem_univ a)
    linarith
  · rw [bump_wmtx_ne nmtx nweights i j δ a j (fun hc => ha hc.1)]
    exact Finset.inf'_le (fun c => wmtxOf nmtx nweights c j)
      (Finset.mem_univ a)

theorem bump_mins_add (nmtx : Fin (n + 1) → Fin m → ℝ)
    (nweights : Fin m → ℝ) (i : Fin (n + 1)) (j : Fin m) (δ : ℝ)
    (hd : 0 ≤ δ * nweights j) :
    minsOf (wmtxOf (bump nmtx i j δ) nweights) j
      ≤ minsOf (wmtxOf nmtx nweights) j + δ * nweights j := by
  obtain ⟨a0, -, ha0⟩ := Finset.exists_mem_eq_inf'
    (Finset.univ_nonempty : (Finset.univ : Finset (Fin (n + 1))).Nonempty)
    (fun c => wmtxOf nmtx nweights c j)
  rw [minsOf, minsOf, ha0]
  by_cases ha : a0 = i
  · subst ha
    calc (Finset.univ.inf' Finset.univ_nonempty
          fun c => wmtxOf (bump nmtx a0 j δ) nweights c j)
        ≤ wmtxOf (bump nmtx a0 j δ) nweights a0 j :=
          Finset.inf'_le _ (Finset.mem_univ a0)
      _ = wmtxOf nmtx nweights a0 j + δ * nweights j := bump_wmtx_ij _ _ _ _ _
  · calc (Finset.univ.inf' Finset.univ_nonempty
          fun c => wmtxOf (bump nmtx i j δ) nweights c j)
        ≤ wmtxOf (bump nmtx i j δ) nweights a0 j :=
          Finset.inf'_le _ (Finset.mem_univ a0)
      _ = wmtxOf nmtx nweights a0 j :=
          bump_wmtx_ne nmtx nweights i j δ a0 j (fun hc => ha hc.1)
      _ ≤ wmtxOf nmtx nweights a0 j + δ * nweights j := by linarith

theorem bump_ideal_ne (nmtx : Fin (n + 1) → Fin m → ℝ)
    (ncriteria : Fin m → ℤ) (nweights : Fin m → ℝ) (i : Fin (n + 1))
    (j : Fin m) (δ : ℝ) (b : Fin m) (hb : b ≠ j) :
    idealOf ncriteria (wmtxOf (bump nmtx i j δ) nweights) b
      = idealOf ncriteria (wmtxOf nmtx nweights) b := by
  simp only [idealOf, npWhere]
  by_cases h : ncriteria b = MAX
  · rw [if_pos h, if_pos h, bump_maxs_ne nmtx nweights i j δ b hb]
  · rw [if_neg h, if_neg h, bump_mins_ne nmtx nweights i j δ b hb]

theorem bump_antiIdeal_ne (nmtx : Fin (n + 1) → Fin m → ℝ)
    (ncriteria : Fin m → ℤ) (nweights : Fin m → ℝ) (i : Fin (n + 1))
    (j : Fin m) (δ : ℝ) (b : Fin m) (hb : b ≠ j) :
    antiIdealOf ncriteria (wmtxOf (bump nmtx i j δ) nweights) b
      = antiIdealOf ncriteria (wmtxOf nmtx nweights) b := by
  simp only [antiIdealOf, npWhere]
  by_cases h : ncriteria b = MIN
  · rw [if_pos h, if_pos h, bump_maxs_ne nmtx nweights i j δ b hb]
  · rw [if_neg h, if_neg h, bump_mins_ne nmtx nweights i j δ b hb]

/-- On a MAX criterion the ideal picks the column maximum and the anti-ideal
the column minimum. -/
theorem ideal_at_max (ncriteria : Fin m → ℤ) (w : Fin (n + 1) → Fin m → ℝ)
    (j : Fin m) (hcrit : ncriteria j = MAX) :
    idealOf ncriteria w j = maxsOf w j
      ∧ antiIdealOf ncriteria w j = minsOf w j := by
  constructor
  · simp only [idealOf, npWhere]
    rw [if_pos hcrit]
  · simp only [antiIdealOf, npWhere]
    rw [if_neg]
    rw [hcrit]
    decide

/-- Raising entry `(i, j)` on a MAX criterion does not increase alternative
`i`'s distance to the ideal point. -/
theorem bump_dBetter_self_le (nmtx : Fin (n + 1) → Fin m → ℝ)
    (ncriteria : Fin m → ℤ) (nweights : Fin m → ℝ) (i : Fin (n + 1))
    (j : Fin m) (δ : ℝ) (hcrit : ncriteria j = MAX)
    (hd : 0 ≤ δ * nweights j) :
    dBetter (bump nmtx i j δ) ncriteria nweights i
      ≤ dBetter nmtx ncriteria nweights i := by
  rw [dBetter, dBetter]
  apply Real.sqrt_le_sqrt
  apply Finset.sum_le_sum
  intro b _
  by_cases hb : b = j
  · subst hb
    rw [(ideal_at_max ncriteria (wmtxOf (bump nmtx i b δ) nweights) b hcrit).1,
      (ideal_at_max ncriteria (wmtxOf nmtx nweights) b hcrit).1,
      bump_wmtx_ij]
    have h1 : wmtxOf nmtx nweights i b + δ * nweights b
        ≤ maxsOf (wmtxOf (bump nmtx i b δ) nweights) b := by
      rw [maxsOf, ← bump_wmtx_ij]
      exact Finset.le_sup' (fun c => wmtxOf (bump nmtx i b δ) nweights c b)
        (Finset.mem_univ i)
    have h2 := bump_maxs_add nmtx nweights i b δ hd
    have key : (maxsOf (wmtxOf (bump nmtx i b δ) nweights) b
          - (wmtxOf nmtx nweights i b + δ * nweights b)) ^ 2
        ≤ (maxsOf (wmtxOf nmtx nweights) b - wmtxOf nmtx nweights i b) ^ 2 :=
      pow_le_pow_left₀ (by linarith) (by linarith) 2
    calc (wmtxOf nmtx nweights i b + δ * nweights b
          - maxsOf (wmtxOf (bump nmtx i b δ) nweights) b) ^ 2
        = (maxsOf (wmtxOf (bump nmtx i b δ) nweights) b
          - (wmtxOf nmtx nweights i b + δ * nweights b)) ^ 2 := by ring
      _ ≤ (maxsOf (wmtxOf nmtx nweights) b - wmtxOf nmtx nweights i b) ^ 2 :=
        key
      _ = (wmtxOf nmtx nweights i b - maxsOf (wmtxOf nmtx nweights) b) ^ 2 :=
        by ring
  · rw [bump_wmtx_ne nmtx nweights i j δ i b (fun hc => hb hc.2),
      bump_ideal_ne nmtx ncriteria nweights i j δ b hb]

/-- Raising entry `(i, j)` on a MAX criterion does not decrease alternative
`i`'s distance to the anti-ideal point. -/
theorem bump_dWorst_self_ge (nmtx : Fin (n + 1) → Fin m → ℝ)
    (ncriteria : Fin m → ℤ) (nweights : Fin m → ℝ) (i : Fin (n + 1))
    (j : Fin m) (δ : ℝ) (hcrit : ncriteria j = MAX)
    (hd : 0 ≤ δ * nweights j) :
    dWorst nmtx ncriteria nweights i
      ≤ dWorst (bump nmtx i j δ) ncriteria nweights i := by
  rw [dWorst, dWorst]
  apply Real.sqrt_le_sqrt
  apply Finset.sum_le_sum
  intro b _
  by_cases hb : b = j
  · subst hb
    rw [(ideal_at_max ncriteria (wmtxOf (bump nmtx i b δ) nweights) b hcrit).2,
      (ideal_at_max ncriteria (wmtxOf nmtx nweights) b hcrit).2,
      bump_wmtx_ij]
    have h1 : minsOf (wmtxOf nmtx nweights) b ≤ wmtxOf nmtx nweights i b := by
      rw [minsOf]
      exact Finset.inf'_le (fun c => wmtxOf nmtx nweights c b)
        (Finset.mem_univ i)
    have h2 := bump_mins_add nmtx nweights i b δ hd
    exact pow_le_pow_left₀ (by linarith) (by linarith) 2
  · rw [bump_wmtx_ne nmtx nweights i j δ i b (fun hc => hb hc.2),
      bump_antiIdeal_ne nmtx ncriteria nweights i j δ b hb]

/-- Raising entry `(i, j)` on a MAX criterion does not decrease any other
alternative's distance to the ideal point. -/
theorem bump_dBetter_other_ge (nmtx : Fin (n + 1) → Fin m → ℝ)
    (ncriteria : Fin m → ℤ) (nweights : Fin m → ℝ) (i : Fin (n + 1))
    (j : Fin m) (δ : ℝ) (hcrit : ncriteria j = MAX)
    (hd : 0 ≤ δ * nweights j) (a : Fin (n + 1)) (ha : a ≠ i) :
    dBetter nmtx ncriteria nweights a
      ≤ dBetter (bump nmtx i j δ) ncriteria nweights a := by
  rw [dBetter, dBetter]
  apply Real.sqrt_le_sqrt
  apply Finset.sum_le_sum
  intro b _
  by_cases hb : b = j
  · subst hb
    rw [(ideal_at_max ncriteria (wmtxOf (bump nmtx i b δ) nweights) b hcrit).1,
      (ideal_at_max ncriteria (wmtxOf nmtx nweights) b hcrit).1,
      bump_wmtx_ne nmtx nweights i b δ a b (fun hc => ha hc.1)]
    have h1 : wmtxOf nmtx nweights a b ≤ maxsOf (wmtxOf nmtx nweights) b := by
      rw [maxsOf]
      exact Finset.le_sup' (fun c => wmtxOf nmtx nweights c b)
        (Finset.mem_univ a)
    have h2 := bump_maxs_mono nmtx nweights i b δ hd
    have key : (maxsOf (wmtxOf nmtx nweights) b - wmtxOf nmtx nweights a b) ^ 2
        ≤ (maxsOf (wmtxOf (bump nmtx i b δ) nweights) b
          - wmtxOf nmtx nweights a b) ^ 2 :=
      pow_le_pow_left₀ (by linarith) (by linarith) 2
    calc (wmtxOf nmtx nweights a b - maxsOf (wmtxOf nmtx nweights) b) ^ 2
        = (maxsOf (wmtxOf nmtx nweights) b - wmtxOf nmtx nweights a b) ^ 2 :=
        by ring
      _ ≤ (maxsOf (wmtxOf (bump nmtx i b δ) nweights) b
          - wmtxOf nmtx nweights a b) ^ 2 := key
      _ = (wmtxOf nmtx nweights a b
          - maxsOf (wmtxOf (bump nmtx i b δ) nweights) b) ^ 2 := by ring
  · rw [bump_wmtx_ne nmtx nweights i j δ a b (fun hc => hb hc.2),
      bump_ideal_ne nmtx ncriteria nweights i j δ b hb]

/-- Raising entry `(i, j)` on a MAX criterion does not increase any other
alternative's distance to the anti-ideal point. -/
theorem bump_dWorst_other_le (nmtx : Fin (n + 1) → Fin m → ℝ)
    (ncriteria : Fin m → ℤ) (nweights : Fin m → ℝ) (i : Fin (n + 1))
    (j : Fin m) (δ : ℝ) (hcrit : ncriteria j = MAX)
    (hd : 0 ≤ δ * nweights j) (a : Fin (n + 1)) (ha : a ≠ i) :
    dWorst (bump nmtx i j δ) ncriteria nweights a
      ≤ dWorst nmtx ncriteria nweights a := by
  rw [dWorst, dWorst]
  apply Real.sqrt_le_sqrt
  apply Finset.sum_le_sum
  intro b _
  by_cases hb : b = j
  · subst hb
    rw [(ideal_at_max ncriteria (wmtxOf (bump nmtx i b δ) nweights) b hcrit).2,
      (ideal_at_max ncriteria (wmtxOf nmtx nweights) b hcrit).2,
      bump_wmtx_ne nmtx nweights i b δ a b (fun hc => ha hc.1)]
    have h1 : minsOf (wmtxOf (bump nmtx i b δ) nweights) b
        ≤ wmtxOf nmtx nweights a b := by
      rw [minsOf, ← bump_wmtx_ne nmtx nweights i b δ a b (fun hc => ha hc.1)]
      exact Finset.inf'_le (fun c => wmtxOf (bump nmtx i b δ) nweights c b)
        (Finset.mem_univ a)
    have h2 := bump_mins_mono nmtx nweights i b δ hd
    exact pow_le_pow_left₀ (by linarith) (by linarith) 2
  · rw [bump_wmtx_ne nmtx nweights i j δ a b (fun hc => hb hc.2),
      bump_antiIdeal_ne nmtx ncriteria nweights i j δ b hb]

/-- The closeness ratio `w / (b + w)` cannot decrease when the distance to
the ideal shrinks and the distance to the anti-ideal grows; zero
denominators are handled by Lean's `x / 0 = 0` convention, under which both
distances vanish together. -/
theorem closeness_ratio_mono {b w b2 w2 : ℝ} (hb2 : 0 ≤ b2) (hw : 0 ≤ w)
    (hbb : b2 ≤ b) (hww : w ≤ w2) : w / (b + w) ≤ w2 / (b2 + w2) := by
  have hw2 : 0 ≤ w2 := le_trans hw hww
  by_cases h1 : b2 + w2 = 0
  · have hw20 : w2 = 0 := by linarith
    have hwz : w = 0 := le_antisymm (by linarith) hw
    rw [hwz, hw20, zero_div, zero_div]
  · have h1' : 0 < b2 + w2 := lt_of_le_of_ne (by linarith) (Ne.symm h1)
    by_cases h2 : b + w = 0
    · have hwz : w = 0 := by linarith
      rw [hwz, zero_div]
      exact div_nonneg hw2 h1'.le
    · have h2' : 0 < b + w := lt_of_le_of_ne (by linarith) (Ne.symm h2)
      rw [div_le_div_iff₀ h2' h1']
      nlinarith [mul_le_mul hww hbb hb2 hw2]

/-- The count-based descending rank of a fixed alternative is monotone under
pointwise tightening of the strict comparisons against it. -/
theorem rankdata_mono_of_pointwise {c c2 : Fin (n + 1) → ℝ} (i : Fin (n + 1))
    (h : ∀ k, c2 i < c2 k → c i < c k) : rankdata c2 i ≤ rankdata c i := by
  rw [rankdata, rankdata]
  have hsub : Finset.univ.filter (fun k => c2 i < c2 k)
      ⊆ Finset.univ.filter (fun k => c i < c k) := by
    intro k hk
    rw [Finset.mem_filter] at hk ⊢
    exact ⟨hk.1, h k hk.2⟩
  exact Nat.add_le_add_left (Finset.card_le_card hsub) 1

/-- C7: strictly increasing one alternative's value on one MAX criterion,
with nonnegative weights and everything else fixed, never worsens that
alternative's rank. -/
theorem topsis_monotone (nmtx : Fin (n + 1) → Fin m → ℝ)
    (ncriteria : Fin m → ℤ) (nweights : Fin m → ℝ) (i : Fin (n + 1))
    (j : Fin m) (δ : ℝ) (hcrit : ncriteria j = MAX)
    (hw : ∀ b, 0 ≤ nweights b) (hδ : 0 < δ) :
    (topsis (bump nmtx i j δ) ncriteria nweights).1 i
      ≤ (topsis nmtx ncriteria nweights).1 i := by
  have hd : 0 ≤ δ * nweights j := mul_nonneg hδ.le (hw j)
  show rankdata (closeness (bump nmtx i j δ) ncriteria nweights) i
    ≤ rankdata (closeness nmtx ncriteria nweights) i
  apply rankdata_mono_of_pointwise
  intro k hk
  by_cases hki : k = i
  · subst hki
    exact absurd hk (lt_irrefl _)
  · have hci : closeness nmtx ncriteria nweights i
        ≤ closeness (bump nmtx i j δ) ncriteria nweights i := by
      rw [closeness, closeness]
      exact closeness_ratio_mono (Real.sqrt_nonneg _) (Real.sqrt_nonneg _)
        (bump_dBetter_self_le nmtx ncriteria nweights i j δ hcrit hd)
        (bump_dWorst_self_ge nmtx ncriteria nweights i j δ hcrit hd)
    have hck : closeness (bump nmtx i j δ) ncriteria nweights k
        ≤ closeness nmtx ncriteria nweights k := by
      rw [closeness, closeness]
      exact closeness_ratio_mono (Real.sqrt_nonneg _) (Real.sqrt_nonneg _)
        (bump_dBetter_other_ge nmtx ncriteria nweights i j δ hcrit hd k hki)
        (bump_dWorst_other_le nmtx ncriteria nweights i j δ hcrit hd k hki)
    exact lt_of_le_of_lt hci (lt_of_lt_of_le hk hck)

/-- C7 witness: raising the first alternative of `[[0], [1]]` by `1` on the
single MAX criterion with unit weight does not worsen its rank. -/
theorem topsis_monotone_witness :
    critA 0 = MAX ∧ (∀ b, 0 ≤ wA b) ∧ (0 : ℝ) < 1 ∧
      (topsis (bump exA 0 0 1) critA wA).1 0 ≤ (topsis exA critA wA).1 0 := by
  have h1 : critA 0 = MAX := by simp [critA]
  have h2 : ∀ b : Fin 1, 0 ≤ wA b := by
    intro b
    fin_cases b
    show (0 : ℝ) ≤ wA 0
    norm_num [wA]
  exact ⟨h1, h2, one_pos, topsis_monotone exA critA wA 0 0 1 h1 h2 one_pos⟩

end SkCriteria
